import Mathlib

/-!
Verification of the RAG (retrieval-augmented generation) pipeline in
`src/app.py` (class `RAGProcessor`).

Modelling conventions (shallow embedding):

* The SentenceTransformer embedding model is an abstract parameter
  `encode : String → Vec`, applied batchwise as `List.map encode`
  (the encoder maps each element independently of its batch).
* Embedding vectors are `List Int` (exact stand-ins for the float
  vectors; only identity and L2 comparisons matter for the claims).
* `faiss.IndexFlatL2` is modelled as the list of stored vectors; its
  exact `search` is modelled by sorting all database positions by
  (squared) L2 distance to the query and taking the first `k`,
  padding with `-1` when fewer than `k` vectors are stored, exactly
  as FAISS does.
* `streamlit.st.error` calls are modelled as a `Bool` flag in the
  result ("an error message was displayed").
* Python's `str.strip()` truthiness test is `hasNonWS` (the string
  contains a non-whitespace character); `pyIsSpace` covers exactly the
  characters CPython's `str.strip()` removes.
* The document-parsing libraries (pdfplumber / python-docx / pandas)
  are modelled by `FilePayload`: what each library would extract from
  the uploaded file, with `Except` capturing a raised exception.
* The hosted LLM client `self.client.predict` is an abstract
  parameter `predict : String → Except String LLMResponse`.
-/

/-- Embedding vectors (`numpy` float arrays in the source, modelled exactly). -/
abbrev Vec := List Int

/-- Squared L2 distance between two vectors, the metric of `faiss.IndexFlatL2`. -/
def d2 (a b : Vec) : Int :=
  ((a.zip b).map (fun p => (p.1 - p.2) * (p.1 - p.2))).sum

/-- The characters stripped by Python's `str.strip()`: the Unicode
whitespace set of CPython (`\t`, `\n`, `\v`, `\f`, `\r`, the separators
`\x1c`-`\x1f`, space, `\x85`, `\xa0`, and the Unicode space characters). -/
def pyIsSpace (c : Char) : Bool :=
  c = '\x09' || c = '\x0a' || c = '\x0b' || c = '\x0c' || c = '\x0d' ||
  c = '\x1c' || c = '\x1d' || c = '\x1e' || c = '\x1f' || c = ' ' ||
  c = '\x85' || c = '\xa0' || c = '\u1680' ||
  c = '\u2000' || c = '\u2001' || c = '\u2002' || c = '\u2003' ||
  c = '\u2004' || c = '\u2005' || c = '\u2006' || c = '\u2007' ||
  c = '\u2008' || c = '\u2009' || c = '\u200a' ||
  c = '\u2028' || c = '\u2029' || c = '\u202f' || c = '\u205f' || c = '\u3000'

/-- Truthiness of `chunk.strip()` in Python: the string has a non-whitespace
character. -/
def hasNonWS (s : String) : Bool :=
  s.toList.any (fun c => !(pyIsSpace c))

/-- `range(0, stop, step)` in Python (for `step > 0`): the multiples of `step`
below `stop`. -/
def pyRange (stop step : Nat) : List Nat :=
  (List.range ((stop + step - 1) / step)).map (· * step)

/-- `[l[i:i+size] for i in range(0, len(l), size)]`: consecutive fixed-width
slices of a list. -/
def pySlices (size : Nat) (l : List α) : List (List α) :=
  (pyRange l.length size).map (fun i => (l.drop i).take size)

/-- `[text[i:i+size] for i in range(0, len(text), size)]` on a Python string
(slicing by code points). -/
def strChunks (size : Nat) (text : String) : List String :=
  (pySlices size text.toList).map String.mk

/-- The batching loop of `store_embeddings`: encode the chunk list in
consecutive batches of `bs` and concatenate the per-batch results. -/
def batchedEncode (encodeBatch : List String → List Vec) (bs : Nat)
    (chunks : List String) : List Vec :=
  ((pySlices bs chunks).map encodeBatch).flatten

/-- Collect a list of optional values; `none` models an uncaught Python
exception in a list comprehension. -/
def seqOptions : List (Option α) → Option (List α)
  | [] => some []
  | none :: _ => none
  | some a :: rest => (seqOptions rest).map (fun l => a :: l)

/-- Python list indexing `l[i]`: non-negative indices are positions, negative
indices count from the end, anything else raises IndexError (`none`). -/
def pyGet (l : List α) (i : Int) : Option α :=
  if 0 ≤ i then l.get? i.toNat
  else if 0 ≤ (l.length : Int) + i then l.get? ((l.length : Int) + i).toNat
  else none

/-- Order on (position, distance) pairs by distance, used to model the
selection performed by `faiss` search. -/
def distLE (a b : Nat × Int) : Prop := a.2 ≤ b.2

instance : DecidableRel distLE := fun a b => inferInstanceAs (Decidable (a.2 ≤ b.2))

instance : IsTotal (Nat × Int) distLE := ⟨fun a b => Int.le_total a.2 b.2⟩

instance : IsTrans (Nat × Int) distLE := ⟨fun _ _ _ h h' => le_trans h h'⟩

/-- All database positions paired with their score. -/
def scoredList (key : Nat → Int) (n : Nat) : List (Nat × Int) :=
  (List.range n).map (fun i => (i, key i))

/-- The `k` positions among `0..n-1` with the smallest `key`, in order of
increasing `key`. -/
def topK (key : Nat → Int) (n k : Nat) : List Nat :=
  (((scoredList key n).insertionSort distLE).map Prod.fst).take k

/-- `faiss.IndexFlatL2.search` on a database `db` with one query vector:
the labels of the `k` nearest stored vectors by squared L2 distance in
increasing order, padded with `-1` when fewer than `k` vectors are stored. -/
def faissSearch (db : List Vec) (q : Vec) (k : Nat) : List Int :=
  let top := (topK (fun i => d2 q (db.getD i [])) db.length k).map (fun i : Nat => (i : Int))
  top ++ List.replicate (k - top.length) (-1)

/-- The retrieval state of a `RAGProcessor` (the `self` fields assigned by the
pipeline; `client`, `model_id` and `embedding_model` are the abstract
parameters `predict` and `encode`). -/
structure RAGState where
  chunks : List String
  embeddings : Option (List Vec)
  faiss_index : Option (List Vec)
  last_file_name : Option String
  deriving Repr, DecidableEq

/-- `RAGProcessor.__init__`. -/
def initState : RAGState :=
  { chunks := [], embeddings := none, faiss_index := none, last_file_name := none }

/-- What the parsing library extracts from the uploaded file: the per-page
texts of a PDF (`none` where `extract_text()` returns None), the paragraph
texts of a DOCX, or the string rendering (without index column) of a
spreadsheet. -/
inductive FilePayload where
  | pdf (pages : List (Option String))
  | docx (paras : List String)
  | xlsx (rendered : String)
  deriving Repr, DecidableEq

/-- An uploaded file: its MIME type and what extraction would yield
(`Except.error` when the parsing library raises). -/
structure UploadedFile where
  ftype : String
  payload : Except String FilePayload
  deriving Repr

/-- `RAGProcessor.preprocess_document`: dispatch on the MIME type, extract
text, return `""` and display an error on unsupported types or exceptions.
Result: (state, extracted text, error displayed). -/
def preprocess_document (s : RAGState) (f : UploadedFile) :
    RAGState × String × Bool :=
  if f.ftype = "application/pdf" then
    match f.payload with
    | .ok (.pdf pages) => (s, String.join (pages.map (fun p => p.getD "")), false)
    | _ => (s, "", true)
  else if f.ftype = "application/vnd.openxmlformats-officedocument.wordprocessingml.document" then
    match f.payload with
    | .ok (.docx paras) => (s, String.intercalate " " paras, false)
    | _ => (s, "", true)
  else if f.ftype = "application/vnd.openxmlformats-officedocument.spreadsheetml.sheet" then
    match f.payload with
    | .ok (.xlsx rendered) => (s, rendered, false)
    | _ => (s, "", true)
  else (s, "", true)

/-- `RAGProcessor.store_embeddings`: slice the text into 500-character chunks,
drop whitespace-only chunks, and on success rebuild the index from the batched
embeddings. Result: (state, returned value, error displayed); `none` models
`return None`. -/
def store_embeddings (encode : String → Vec) (batch_size : Nat) (s : RAGState)
    (text : String) : RAGState × Option (List String) × Bool :=
  let cs := (strChunks 500 text).filter hasNonWS
  if cs = [] then
    ({ s with chunks := cs }, none, true)
  else
    let embs := batchedEncode (List.map encode) batch_size cs
    ({ s with chunks := cs, embeddings := some embs, faiss_index := some embs },
      some cs, false)

/-- `RAGProcessor.retrieve_context`: error (and `""`) when nothing is indexed,
otherwise look up the top-5 FAISS labels in `self.chunks` and join them with
spaces. The outer `none` models an uncaught IndexError from `self.chunks[i]`. -/
def retrieve_context (encode : String → Vec) (s : RAGState) (query : String) :
    RAGState × Option (String × Bool) :=
  match s.faiss_index with
  | none => (s, some ("", true))
  | some db =>
    if s.chunks = [] then (s, some ("", true))
    else
      let qv := encode query
      let idxs := faissSearch db qv 5
      match seqOptions (idxs.map (pyGet s.chunks)) with
      | none => (s, none)
      | some retrieved => (s, some (String.intercalate " " retrieved, false))

/-- One element of the `choices` list of the LLM response. -/
structure LLMChoice where
  text : Option String
  deriving Repr, DecidableEq

/-- The response dictionary of `self.client.predict`: an optional `choices`
list. -/
structure LLMResponse where
  choices : Option (List LLMChoice)
  deriving Repr, DecidableEq

/-- The prompt template of `query_llm`, with context and query interpolated. -/
def mkPrompt (query context : String) : String :=
  "You are an expert. Answer the question using the provided context:\n\n" ++
  "Context: " ++ context ++ "\n\n" ++
  "Question: " ++ query ++ "\n\n" ++
  "Answer:"

/-- `RAGProcessor.query_llm`: build the prompt, call the remote model, read
`response.get("choices", [{}])[0].get("text", ...)`. An empty `choices` list
makes the `[0]` raise IndexError, which the same handler catches. Result:
(state, answer, error displayed). -/
def query_llm (predict : String → Except String LLMResponse) (s : RAGState)
    (query context : String) : RAGState × String × Bool :=
  match predict (mkPrompt query context) with
  | .error _ => (s, "", true)
  | .ok r =>
    match r.choices.getD [{ text := none }] with
    | [] => (s, "", true)
    | c :: _ => (s, c.text.getD "No response text available.", false)

/-- C8's reading of `query_llm`'s output, following the claim's words: the
first choice's text field, `'No response text available.'` when that field is
absent, and `""` (with an error) exactly when the remote call raises. -/
def query_llm_claimed (predict : String → Except String LLMResponse)
    (query context : String) : String × Bool :=
  match predict (mkPrompt query context) with
  | .error _ => ("", true)
  | .ok r =>
    match (r.choices.getD [{ text := none }]).head? with
    | none => ("No response text available.", false)
    | some c => (c.text.getD "No response text available.", false)

/-- States reachable by the application: starting from `__init__` and applying
the pipeline operations (plus the script's assignment of `last_file_name`
after a successful indexing step). -/
inductive Reachable (encode : String → Vec) : RAGState → Prop where
  | init : Reachable encode initState
  | preprocess (s : RAGState) (f : UploadedFile) (h : Reachable encode s) :
      Reachable encode (preprocess_document s f).1
  | store (s : RAGState) (text : String) (h : Reachable encode s) :
      Reachable encode (store_embeddings encode 32 s text).1
  | retrieve (s : RAGState) (q : String) (h : Reachable encode s) :
      Reachable encode (retrieve_context encode s q).1
  | query (predict : String → Except String LLMResponse) (s : RAGState)
      (q c : String) (h : Reachable encode s) :
      Reachable encode (query_llm predict s q c).1
  | setName (s : RAGState) (name : String) (h : Reachable encode s) :
      Reachable encode { s with last_file_name := some name }

/-! ### Lemmas about Python-style slicing -/

theorem pyRange_zero (step : Nat) : pyRange 0 step = [] := by
  unfold pyRange
  rcases Nat.eq_zero_or_pos step with h | h
  · subst h; rfl
  · have : (0 + step - 1) / step = 0 := Nat.div_eq_of_lt (by omega)
    rw [this]; rfl

theorem pyRange_succ (n step : Nat) (hs : 0 < step) (hn : 0 < n) :
    pyRange n step = 0 :: (pyRange (n - step) step).map (· + step) := by
  unfold pyRange
  have hcount : (n + step - 1) / step = (n - step + step - 1) / step + 1 := by
    rcases le_or_lt n step with h | h
    · have h1 : n - step = 0 := by omega
      rw [h1]
      have h2 : (0 + step - 1) / step = 0 := Nat.div_eq_of_lt (by omega)
      rw [h2]
      exact Nat.div_eq_of_lt_le (by omega) (by omega)
    · have h1 : n + step - 1 = (n - step + step - 1) + step := by omega
      rw [h1, Nat.add_div_right _ hs]
  rw [hcount, List.range_succ_eq_map, List.map_cons, List.map_map, List.map_map]
  refine congrArg₂ (· :: ·) (by simp) (List.map_congr_left fun a _ => ?_)
  simp only [Function.comp_apply]
  rw [Nat.succ_mul]

theorem pySlices_nil {α : Type} (size : Nat) : pySlices size ([] : List α) = [] := by
  unfold pySlices
  rw [List.length_nil, pyRange_zero]
  rfl

theorem pySlices_cons {α : Type} {size : Nat} (hs : 0 < size) (l : List α) (hl : l ≠ []) :
    pySlices size l = l.take size :: pySlices size (l.drop size) := by
  unfold pySlices
  have hn : 0 < l.length := List.length_pos.mpr hl
  rw [pyRange_succ l.length size hs hn, List.map_cons, List.map_map]
  have hlen : (l.drop size).length = l.length - size := List.length_drop size l
  rw [hlen]
  refine congrArg₂ (· :: ·) (by simp) (List.map_congr_left ?_)
  intro i _
  simp only [Function.comp_apply, List.drop_drop]
  rw [Nat.add_comm size i]

theorem flatten_pySlices {α : Type} {size : Nat} (hs : 0 < size) (l : List α) :
    (pySlices size l).flatten = l := by
  generalize hn : l.length = n
  induction n using Nat.strong_induction_on generalizing l with
  | _ n ih =>
    cases l with
    | nil => rw [pySlices_nil]; rfl
    | cons a t =>
      rw [pySlices_cons hs (a :: t) (by simp), List.flatten_cons]
      have hlt : ((a :: t).drop size).length < n := by
        rw [List.length_drop]
        subst hn
        simp only [List.length_cons]
        omega
      rw [ih _ hlt _ rfl]
      exact List.take_append_drop size (a :: t)

theorem pySlices_dropLast_length {α : Type} {size : Nat} (hs : 0 < size) (l : List α) :
    ∀ c ∈ (pySlices size l).dropLast, c.length = size := by
  generalize hn : l.length = n
  induction n using Nat.strong_induction_on generalizing l with
  | _ n ih =>
    cases l with
    | nil => rw [pySlices_nil]; intro c hc; simp at hc
    | cons a t =>
      rw [pySlices_cons hs (a :: t) (by simp)]
      by_cases hd : (a :: t).drop size = []
      · rw [hd, pySlices_nil]
        intro c hc; simp at hc
      · have hlt : ((a :: t).drop size).length < n := by
          rw [List.length_drop]; subst hn; simp only [List.length_cons]; omega
        have hrec := ih _ hlt ((a :: t).drop size) rfl
        rw [pySlices_cons hs _ hd] at hrec ⊢
        intro c hc
        rw [List.dropLast_cons₂] at hc
        rcases List.mem_cons.mp hc with rfl | hc
        · have hsz : size < (a :: t).length := by
            by_contra hcon
            exact hd (List.drop_eq_nil_of_le (by omega))
          rw [List.length_take]
          omega
        · exact hrec c hc

theorem mem_dropLast_filter {α : Type} {p : α → Bool} {q : α → Prop} :
    ∀ l : List α, (∀ x ∈ l.dropLast, q x) → ∀ x ∈ (l.filter p).dropLast, q x := by
  intro l
  induction l with
  | nil => intro _ x hx; simp at hx
  | cons a t ih =>
    intro h x hx
    have ht : ∀ y ∈ t.dropLast, q y := by
      intro y hy
      apply h
      cases t with
      | nil => simp at hy
      | cons b u => rw [List.dropLast_cons₂]; exact List.mem_cons_of_mem a hy
    rw [List.filter_cons] at hx
    by_cases hp : p a
    · rw [if_pos hp] at hx
      cases hft : t.filter p with
      | nil => rw [hft] at hx; simp at hx
      | cons b u =>
        rw [hft, List.dropLast_cons₂] at hx
        rcases List.mem_cons.mp hx with rfl | hx
        · apply h
          have htne : t ≠ [] := by
            intro hc; rw [hc] at hft; simp at hft
          cases t with
          | nil => exact absurd rfl htne
          | cons c v => rw [List.dropLast_cons₂]; exact List.mem_cons_self x _
        · rw [← hft] at hx
          exact ih ht x hx
    · rw [if_neg hp] at hx
      exact ih ht x hx

/-! ### Lemmas about strings and chunking -/

theorem data_mk (l : List Char) : (String.mk l).data = l := rfl

theorem mk_toList (s : String) : String.mk s.toList = s := by cases s; rfl

theorem map_dropLast_comm {α β : Type} (f : α → β) :
    ∀ l : List α, (l.map f).dropLast = l.dropLast.map f := by
  intro l
  induction l with
  | nil => rfl
  | cons a rest ih =>
    cases rest with
    | nil => rfl
    | cons b u =>
      have h := ih
      simp only [List.map_cons, List.dropLast_cons₂] at h ⊢
      rw [h]

theorem join_map_mk (parts : List (List Char)) :
    String.join (parts.map String.mk) = String.mk parts.flatten := by
  rw [String.join_eq, List.map_map]
  have h : String.data ∘ String.mk = id := rfl
  rw [h, List.map_id]

theorem join_strChunks {size : Nat} (hs : 0 < size) (t : String) :
    String.join (strChunks size t) = t := by
  unfold strChunks
  rw [join_map_mk, flatten_pySlices hs, mk_toList]

theorem strChunks_dropLast_length {size : Nat} (hs : 0 < size) (t : String) :
    ∀ c ∈ (strChunks size t).dropLast, c.length = size := by
  intro c hc
  unfold strChunks at hc
  rw [map_dropLast_comm] at hc
  rcases List.mem_map.mp hc with ⟨part, hpart, rfl⟩
  have := pySlices_dropLast_length hs t.toList part hpart
  simpa [String.length] using this

theorem strChunks_filter_nil_iff (t : String) :
    ((strChunks 500 t).filter hasNonWS = []) ↔ t.toList.all pyIsSpace = true := by
  rw [List.filter_eq_nil_iff, List.all_eq_true]
  constructor
  · intro h c hc
    rw [← flatten_pySlices (by omega : (0:Nat) < 500) t.toList, List.mem_flatten] at hc
    rcases hc with ⟨part, hpart, hcpart⟩
    have hin : String.mk part ∈ strChunks 500 t :=
      List.mem_map.mpr ⟨part, hpart, rfl⟩
    have hnot := h _ hin
    unfold hasNonWS at hnot
    simp only [String.toList, data_mk] at hnot
    by_contra hcon
    refine hnot (List.any_eq_true.mpr ⟨c, hcpart, ?_⟩)
    cases hb : pyIsSpace c
    · simp
    · exact absurd hb hcon
  · intro h s hs
    rcases List.mem_map.mp hs with ⟨part, hpart, rfl⟩
    unfold hasNonWS
    simp only [String.toList, data_mk]
    intro hany
    rcases List.any_eq_true.mp hany with ⟨c, hcpart, hc⟩
    have hcl : c ∈ t.toList := by
      rw [← flatten_pySlices (by omega : (0:Nat) < 500) t.toList, List.mem_flatten]
      exact ⟨part, hpart, hcpart⟩
    have := h c hcl
    simp [this] at hc

theorem go_length_ge (l : List String) : ∀ acc s : String,
    acc.length ≤ (String.intercalate.go acc s l).length := by
  induction l with
  | nil => intro acc s; simp [String.intercalate.go]
  | cons a l ih =>
    intro acc s
    have h := ih (acc ++ s ++ a) s
    simp only [String.intercalate.go]
    refine le_trans ?_ h
    simp [String.length_append]
    omega

theorem intercalate_two_ne (a b : String) (rest : List String) :
    String.intercalate " " (a :: b :: rest) ≠ "" := by
  have h : (String.intercalate " " (a :: b :: rest)).length ≠ 0 := by
    have h1 := go_length_ge rest (a ++ " " ++ b) " "
    have h2 : String.intercalate " " (a :: b :: rest)
        = String.intercalate.go (a ++ " " ++ b) " " rest := by
      simp [String.intercalate, String.intercalate.go]
    rw [h2]
    have h3 : (a ++ " " ++ b).length = a.length + 1 + b.length := by
      rw [String.length_append, String.length_append]
      rfl
    omega
  intro hc
  rw [hc] at h
  simp at h

/-! ### Lemmas about the nearest-neighbour search model -/

theorem scoredList_mem {key : Nat → Int} {n : Nat} {p : Nat × Int}
    (h : p ∈ scoredList key n) : p.1 < n ∧ p.2 = key p.1 := by
  unfold scoredList at h
  rcases List.mem_map.mp h with ⟨i, hi, rfl⟩
  exact ⟨List.mem_range.mp hi, rfl⟩

theorem map_fst_scoredList (key : Nat → Int) (n : Nat) :
    (scoredList key n).map Prod.fst = List.range n := by
  unfold scoredList
  have h : (Prod.fst ∘ fun i : Nat => (i, key i)) = id := rfl
  rw [List.map_map, h, List.map_id]

theorem length_scoredList (key : Nat → Int) (n : Nat) :
    (scoredList key n).length = n := by
  unfold scoredList; simp

theorem topK_length (key : Nat → Int) (n k : Nat) :
    (topK key n k).length = min k n := by
  unfold topK
  rw [List.length_take, List.length_map, List.length_insertionSort, length_scoredList]

theorem perm_sortedFst (key : Nat → Int) (n : Nat) :
    (((scoredList key n).insertionSort distLE).map Prod.fst).Perm (List.range n) := by
  rw [← map_fst_scoredList key n]
  exact (List.perm_insertionSort distLE (scoredList key n)).map Prod.fst

theorem topK_mem {key : Nat → Int} {n k i : Nat} (h : i ∈ topK key n k) : i < n := by
  unfold topK at h
  have h2 := (List.take_sublist k _).mem h
  rw [(perm_sortedFst key n).mem_iff, List.mem_range] at h2
  exact h2

theorem topK_nodup (key : Nat → Int) (n k : Nat) : (topK key n k).Nodup := by
  unfold topK
  exact (List.take_sublist k _).nodup
    ((perm_sortedFst key n).symm.nodup (List.nodup_range n))

theorem sortedPairs_mem {key : Nat → Int} {n : Nat} {p : Nat × Int}
    (h : p ∈ (scoredList key n).insertionSort distLE) : p.1 < n ∧ p.2 = key p.1 :=
  scoredList_mem ((List.mem_insertionSort distLE).mp h)

theorem topK_sorted (key : Nat → Int) (n k : Nat) :
    (topK key n k).Pairwise (fun i j => key i ≤ key j) := by
  have hS : List.Pairwise distLE ((scoredList key n).insertionSort distLE) :=
    List.sorted_insertionSort distLE (scoredList key n)
  have h2 : ((scoredList key n).insertionSort distLE).Pairwise
      (fun a b => key a.1 ≤ key b.1) := by
    refine hS.imp_of_mem ?_
    intro a b ha hb hr
    rw [← (sortedPairs_mem ha).2, ← (sortedPairs_mem hb).2]
    exact hr
  have h3 : (((scoredList key n).insertionSort distLE).map Prod.fst).Pairwise
      (fun i j => key i ≤ key j) := List.pairwise_map.mpr h2
  unfold topK
  exact List.Pairwise.sublist (List.take_sublist k _) h3

theorem topK_min {key : Nat → Int} {n k i j : Nat} (hi : i ∈ topK key n k)
    (hj : j < n) (hnj : j ∉ topK key n k) : key i ≤ key j := by
  have hS : List.Pairwise distLE ((scoredList key n).insertionSort distLE) :=
    List.sorted_insertionSort distLE (scoredList key n)
  set S := (scoredList key n).insertionSort distLE with hSdef
  have hsplit : S = S.take k ++ S.drop k := (List.take_append_drop k S).symm
  have hjT : j ∈ (S.map Prod.fst) := by
    rw [(perm_sortedFst key n).mem_iff, List.mem_range]
    exact hj
  have hjdrop : j ∈ (S.drop k).map Prod.fst := by
    rw [List.map_drop]
    have : j ∈ (S.map Prod.fst).take k ++ (S.map Prod.fst).drop k := by
      rw [List.take_append_drop]; exact hjT
    rcases List.mem_append.mp this with h | h
    · exact absurd (by rw [topK]; exact h) hnj
    · exact h
  have hitake : i ∈ (S.take k).map Prod.fst := by rw [List.map_take]; exact hi
  rcases List.mem_map.mp hitake with ⟨pi, hpi, hpi1⟩
  rcases List.mem_map.mp hjdrop with ⟨pj, hpj, hpj1⟩
  have hcross : distLE pi pj := by
    rw [hsplit] at hS
    exact (List.pairwise_append.mp hS).2.2 pi hpi pj hpj
  have hpiS : pi ∈ S := (List.take_sublist k S).mem hpi
  have hpjS : pj ∈ S := (List.drop_sublist k S).mem hpj
  have h1 := (sortedPairs_mem hpiS).2
  have h2 := (sortedPairs_mem hpjS).2
  unfold distLE at hcross
  rw [h1, h2, hpi1, hpj1] at hcross
  exact hcross

/-! ### Batching, option traversal, Python indexing, search results -/

theorem batchedEncode_map (encode : String → Vec) {bs : Nat} (hbs : 0 < bs)
    (chunks : List String) :
    batchedEncode (List.map encode) bs chunks = chunks.map encode := by
  unfold batchedEncode
  rw [← List.map_flatten, flatten_pySlices hbs]

theorem seqOptions_map_some {α β : Type} {f : α → Option β} {g : α → β} :
    ∀ l : List α, (∀ x ∈ l, f x = some (g x)) →
      seqOptions (l.map f) = some (l.map g) := by
  intro l
  induction l with
  | nil => intro _; rfl
  | cons a t ih =>
    intro h
    have ha := h a (List.mem_cons_self a t)
    have ht := ih (fun x hx => h x (List.mem_cons_of_mem a hx))
    simp only [List.map_cons, ha, seqOptions, ht, Option.map_some']

theorem seqOptions_some_of_all {α : Type} :
    ∀ l : List (Option α), (∀ o ∈ l, o ≠ none) →
      ∃ v, seqOptions l = some v ∧ v.length = l.length := by
  intro l
  induction l with
  | nil => intro _; exact ⟨[], rfl, rfl⟩
  | cons o t ih =>
    intro h
    rcases Option.ne_none_iff_exists.mp (h o (List.mem_cons_self o t)) with ⟨a, ha⟩
    rcases ih (fun x hx => h x (List.mem_cons_of_mem o hx)) with ⟨v, hv, hlen⟩
    refine ⟨a :: v, ?_, by simp [hlen]⟩
    rw [← ha]
    simp only [seqOptions, hv, Option.map_some']

theorem pyGet_coe {α : Type} {l : List α} {i : Nat} (h : i < l.length) (d : α) :
    pyGet l (i : Int) = some (l.getD i d) := by
  unfold pyGet
  rw [if_pos (Int.ofNat_nonneg i), Int.toNat_ofNat, List.get?_eq_getElem?,
    List.getElem?_eq_getElem h, List.getD_eq_getElem?_getD,
    List.getElem?_eq_getElem h]
  rfl

theorem pyGet_neg_one {α : Type} {l : List α} (h : l ≠ []) :
    ∃ v, pyGet l (-1) = some v := by
  unfold pyGet
  have hlen : 0 < l.length := List.length_pos.mpr h
  rw [if_neg (by omega), if_pos (by omega)]
  have hidx : ((l.length : Int) + (-1)).toNat < l.length := by omega
  rw [List.get?_eq_getElem?, List.getElem?_eq_getElem hidx]
  exact ⟨_, rfl⟩

theorem faissSearch_length (db : List Vec) (q : Vec) (k : Nat) :
    (faissSearch db q k).length = k := by
  unfold faissSearch
  simp only [List.length_append, List.length_map, List.length_replicate, topK_length]
  omega

theorem faissSearch_of_le {db : List Vec} {q : Vec} {k : Nat} (h : k ≤ db.length) :
    faissSearch db q k
      = (topK (fun i => d2 q (db.getD i [])) db.length k).map (fun i : Nat => (i : Int)) := by
  unfold faissSearch
  simp only [List.length_map, topK_length, min_eq_left h, Nat.sub_self,
    List.replicate_zero, List.append_nil]

theorem faissSearch_mem {db : List Vec} {q : Vec} {k : Nat} {i : Int}
    (h : i ∈ faissSearch db q k) :
    (0 ≤ i ∧ i.toNat < db.length) ∨ i = -1 := by
  unfold faissSearch at h
  simp only [] at h
  rcases List.mem_append.mp h with h | h
  · rcases List.mem_map.mp h with ⟨j, hj, rfl⟩
    exact Or.inl ⟨Int.ofNat_nonneg j, by rw [Int.toNat_ofNat]; exact topK_mem hj⟩
  · exact Or.inr (List.mem_replicate.mp h).2

/-! ### Unfolding equations for the pipeline operations -/

theorem store_embeddings_def (encode : String → Vec) (bs : Nat) (s : RAGState)
    (text : String) :
    store_embeddings encode bs s text =
      if (strChunks 500 text).filter hasNonWS = [] then
        ({ s with chunks := (strChunks 500 text).filter hasNonWS }, none, true)
      else
        ({ s with
            chunks := (strChunks 500 text).filter hasNonWS,
            embeddings := some (batchedEncode (List.map encode) bs
              ((strChunks 500 text).filter hasNonWS)),
            faiss_index := some (batchedEncode (List.map encode) bs
              ((strChunks 500 text).filter hasNonWS)) },
          some ((strChunks 500 text).filter hasNonWS), false) := rfl

theorem retrieve_context_unindexed (encode : String → Vec) (s : RAGState)
    (query : String) (h : s.faiss_index = none ∨ s.chunks = []) :
    retrieve_context encode s query = (s, some ("", true)) := by
  unfold retrieve_context
  rcases h with h | h
  · rw [h]
  · cases hidx : s.faiss_index with
    | none => rfl
    | some db => simp [h]

theorem retrieve_context_indexed (encode : String → Vec) (s : RAGState)
    (query : String) {db : List Vec} (hidx : s.faiss_index = some db)
    (hne : s.chunks ≠ []) :
    retrieve_context encode s query =
      (s, match seqOptions ((faissSearch db (encode query) 5).map (pyGet s.chunks)) with
          | none => none
          | some retrieved => some (String.intercalate " " retrieved, false)) := by
  unfold retrieve_context
  simp only [hidx, if_neg hne]
  cases hseq : seqOptions ((faissSearch db (encode query) 5).map (pyGet s.chunks)) with
  | none => rfl
  | some retrieved => rfl

theorem preprocess_state (s : RAGState) (f : UploadedFile) :
    (preprocess_document s f).1 = s := by
  unfold preprocess_document
  repeat' split
  all_goals rfl

theorem retrieve_state (encode : String → Vec) (s : RAGState) (query : String) :
    (retrieve_context encode s query).1 = s := by
  rcases hidx : s.faiss_index with _ | db
  · rw [retrieve_context_unindexed encode s query (Or.inl hidx)]
  · by_cases h : s.chunks = []
    · rw [retrieve_context_unindexed encode s query (Or.inr h)]
    · rw [retrieve_context_indexed encode s query hidx h]

theorem query_state (predict : String → Except String LLMResponse) (s : RAGState)
    (query context : String) :
    (query_llm predict s query context).1 = s := by
  unfold query_llm
  repeat' split
  all_goals rfl

/-! ### The retrieval-state invariant -/

/-- The FAISS index holds exactly the in-order embeddings of the current
chunk list (or no document is chunked). -/
def IndexMatches (encode : String → Vec) (s : RAGState) : Prop :=
  s.chunks = [] ∨ s.faiss_index = some (s.chunks.map encode)

/-- Every stored chunk survived the whitespace filter. -/
def ChunksClean (s : RAGState) : Prop :=
  ∀ c ∈ s.chunks, hasNonWS c = true

theorem reachable_inv {encode : String → Vec} {s : RAGState}
    (h : Reachable encode s) : IndexMatches encode s ∧ ChunksClean s := by
  induction h with
  | init =>
    exact ⟨Or.inl rfl, fun c hc => by simp [initState] at hc⟩
  | preprocess s f h ih => rwa [preprocess_state]
  | retrieve s q h ih => rwa [retrieve_state]
  | query predict s q c h ih => rwa [query_state]
  | setName s name h ih => exact ih
  | store s text h ih =>
    rw [store_embeddings_def]
    by_cases hcs : (strChunks 500 text).filter hasNonWS = []
    · rw [if_pos hcs]
      refine ⟨Or.inl hcs, ?_⟩
      intro c hc
      rw [hcs] at hc
      simp at hc
    · rw [if_neg hcs]
      refine ⟨Or.inr ?_, ?_⟩
      · simp only
        rw [batchedEncode_map encode (by omega)]
      · intro c hc
        simp only at hc
        exact List.of_mem_filter hc

/-- A concrete sample encoder used to instantiate theorems on closed inputs. -/
def encodeLen (s : String) : Vec := [(s.length : Int)]

theorem pyGet_nonneg_ne {α : Type} {l : List α} {i : Int} (h0 : 0 ≤ i)
    (hlt : i.toNat < l.length) : pyGet l i ≠ none := by
  unfold pyGet
  rw [if_pos h0, List.get?_eq_getElem?, List.getElem?_eq_getElem hlt]
  simp

theorem getD_map_of_lt {α β : Type} {l : List α} {f : α → β} {i : Nat}
    (h : i < l.length) (d : α) (d' : β) : (l.map f).getD i d' = f (l.getD i d) := by
  rw [List.getD_eq_getElem?_getD, List.getElem?_map, List.getElem?_eq_getElem h,
    List.getD_eq_getElem?_getD, List.getElem?_eq_getElem h]
  rfl

/-! ### C2 -/

/-- C2 counterexample: for the all-whitespace text `" "` the stored chunk list
is not the list of 500-character slices (the whitespace-only slice is
filtered out), and the concatenation of the stored chunks is not the original
text. -/
theorem store_chunks_slices_cex :
    (store_embeddings (fun _ => ([] : Vec)) 32 initState " ").1.chunks
        ≠ strChunks 500 " "
    ∧ String.join (store_embeddings (fun _ => ([] : Vec)) 32 initState " ").1.chunks
        ≠ " " := by
  decide

/-- C2 (amended): `store_embeddings` sets the chunk list to the consecutive
500-character slices of the text with the whitespace-only slices removed;
every stored chunk except possibly the last has length 500; the concatenation
of all (unfiltered) slices equals the original text, and the concatenation of
the stored chunks equals the text whenever no slice is whitespace-only. -/
theorem store_chunks_slices_amended (encode : String → Vec) (s : RAGState)
    (text : String) :
    (store_embeddings encode 32 s text).1.chunks
        = (strChunks 500 text).filter hasNonWS
    ∧ String.join (strChunks 500 text) = text
    ∧ (∀ c ∈ ((store_embeddings encode 32 s text).1.chunks).dropLast, c.length = 500)
    ∧ ((∀ c ∈ strChunks 500 text, hasNonWS c = true) →
        String.join (store_embeddings encode 32 s text).1.chunks = text) := by
  have hchunks : (store_embeddings encode 32 s text).1.chunks
      = (strChunks 500 text).filter hasNonWS := by
    rw [store_embeddings_def]
    by_cases h : (strChunks 500 text).filter hasNonWS = []
    · rw [if_pos h]
    · rw [if_neg h]
  refine ⟨hchunks, join_strChunks (by omega) text, ?_, ?_⟩
  · rw [hchunks]
    exact mem_dropLast_filter (strChunks 500 text)
      (strChunks_dropLast_length (by omega) text)
  · intro hall
    rw [hchunks, List.filter_eq_self.mpr hall, join_strChunks (by omega) text]

/-- C2 witness: on the text `"hi"` no slice is whitespace-only and the stored
chunks concatenate back to the text. -/
theorem store_chunks_slices_witness :
    String.join (store_embeddings (fun _ => ([] : Vec)) 32 initState "hi").1.chunks
      = "hi" :=
  (store_chunks_slices_amended (fun _ => ([] : Vec)) initState "hi").2.2.2 (by decide)

/-! ### C4 -/

/-- C4: encoding the chunk list in batches of 32 and concatenating the
per-batch results equals encoding the whole list in one call, under the
hypothesis that the encoder maps each element independently of its batch;
in particular the i-th embedding is the embedding of the i-th chunk. -/
theorem batch_encode_refines (encodeBatch : List String → List Vec)
    (encode : String → Vec) (h : ∀ b, encodeBatch b = b.map encode)
    (chunks : List String) :
    batchedEncode encodeBatch 32 chunks = chunks.map encode
    ∧ ∀ i : Nat, (batchedEncode encodeBatch 32 chunks)[i]?
        = (chunks[i]?).map encode := by
  have heq : batchedEncode encodeBatch 32 chunks = chunks.map encode := by
    have hmap : (pySlices 32 chunks).map encodeBatch
        = (pySlices 32 chunks).map (List.map encode) :=
      List.map_congr_left (fun b _ => h b)
    have h2 := batchedEncode_map encode (show (0:Nat) < 32 by omega) chunks
    unfold batchedEncode at h2 ⊢
    rw [hmap, h2]
  refine ⟨heq, fun i => ?_⟩
  rw [heq, List.getElem?_map]

/-- C4 witness: batching two chunks agrees with mapping the encoder. -/
theorem batch_encode_refines_witness :
    batchedEncode (List.map encodeLen) 32 ["a", "bb"]
      = ["a", "bb"].map encodeLen :=
  (batch_encode_refines (List.map encodeLen) encodeLen (fun _ => rfl) ["a", "bb"]).1

/-! ### C5 -/

/-- C5: `store_embeddings` returns `None` and displays an error exactly when
the text contains no non-whitespace character; for every other text it
returns the new, non-empty chunk list without error. -/
theorem store_error_iff_blank (encode : String → Vec) (s : RAGState)
    (text : String) :
    ((store_embeddings encode 32 s text).2.1 = none
        ∧ (store_embeddings encode 32 s text).2.2 = true
      ↔ text.toList.all pyIsSpace = true)
    ∧ (text.toList.all pyIsSpace = false →
        (store_embeddings encode 32 s text).2.1
            = some (store_embeddings encode 32 s text).1.chunks
          ∧ (store_embeddings encode 32 s text).1.chunks ≠ []
          ∧ (store_embeddings encode 32 s text).2.2 = false) := by
  rw [store_embeddings_def]
  by_cases h : (strChunks 500 text).filter hasNonWS = []
  · rw [if_pos h]
    constructor
    · exact ⟨fun _ => (strChunks_filter_nil_iff text).mp h, fun _ => ⟨rfl, rfl⟩⟩
    · intro hfalse
      refine absurd ((strChunks_filter_nil_iff text).mp h) ?_
      rw [hfalse]
      exact Bool.false_ne_true
  · rw [if_neg h]
    constructor
    · constructor
      · intro hcon
        exact absurd hcon.1 (by simp)
      · intro hall
        exact absurd ((strChunks_filter_nil_iff text).mpr hall) h
    · intro _
      exact ⟨rfl, h, rfl⟩

/-- C5 witness: on `"hi"` a non-empty chunk list is returned, and on a
whitespace-only text `None` is returned with an error. -/
theorem store_error_iff_blank_witness :
    ((store_embeddings (fun _ => ([] : Vec)) 32 initState "hi").2.1
        = some (store_embeddings (fun _ => ([] : Vec)) 32 initState "hi").1.chunks
      ∧ (store_embeddings (fun _ => ([] : Vec)) 32 initState "hi").1.chunks ≠ []
      ∧ (store_embeddings (fun _ => ([] : Vec)) 32 initState "hi").2.2 = false)
    ∧ ((store_embeddings (fun _ => ([] : Vec)) 32 initState "  ").2.1 = none
      ∧ (store_embeddings (fun _ => ([] : Vec)) 32 initState "  ").2.2 = true) :=
  ⟨(store_error_iff_blank (fun _ => ([] : Vec)) initState "hi").2 (by decide),
   (store_error_iff_blank (fun _ => ([] : Vec)) initState "  ").1.mpr (by decide)⟩

/-! ### C3 -/

/-- C3: in every reachable state of the processor, either the chunk list is
empty or the FAISS index holds exactly one vector per current chunk, namely
the in-order embeddings of `self.chunks`; the invariant is preserved by
`__init__`, `preprocess_document`, `store_embeddings` (both outcomes),
`retrieve_context` and `query_llm`. -/
theorem reachable_index_matches (encode : String → Vec) (s : RAGState)
    (h : Reachable encode s) :
    s.chunks = [] ∨ s.faiss_index = some (s.chunks.map encode) :=
  (reachable_inv h).1

/-- C3 witness: the invariant at the concrete state reached by indexing
`"hi"` from the initial state. -/
theorem reachable_index_matches_witness :
    (store_embeddings encodeLen 32 initState "hi").1.chunks = []
    ∨ (store_embeddings encodeLen 32 initState "hi").1.faiss_index
        = some ((store_embeddings encodeLen 32 initState "hi").1.chunks.map encodeLen) :=
  reachable_index_matches encodeLen _ (Reachable.store initState "hi" Reachable.init)

/-! ### C10 -/

/-- C10: `preprocess_document`, `retrieve_context` and `query_llm` never
modify the processor's retrieval state (`chunks`, `embeddings`,
`faiss_index`, `last_file_name`), whether they succeed or take an error
branch. -/
theorem readonly_ops_frame (encode : String → Vec)
    (predict : String → Except String LLMResponse) (s : RAGState)
    (f : UploadedFile) (q c : String) :
    (preprocess_document s f).1 = s
    ∧ (retrieve_context encode s q).1 = s
    ∧ (query_llm predict s q c).1 = s :=
  ⟨preprocess_state s f, retrieve_state encode s q, query_state predict s q c⟩

/-! ### C7 -/

/-- C7: `preprocess_document` returns the extracted text for each supported
file type (PDF: concatenated per-page text with missing pages as empty
strings; DOCX: space-joined paragraphs; spreadsheet: the rendered table), and
returns `""` with an error message for every other file type and whenever
extraction raises. -/
theorem preprocess_document_cases (s : RAGState) (f : UploadedFile) :
    (f.ftype = "application/pdf" →
      ∀ pages, f.payload = .ok (.pdf pages) →
        (preprocess_document s f).2
          = (String.join (pages.map (fun p => p.getD "")), false))
    ∧ (f.ftype = "application/vnd.openxmlformats-officedocument.wordprocessingml.document" →
      ∀ paras, f.payload = .ok (.docx paras) →
        (preprocess_document s f).2 = (String.intercalate " " paras, false))
    ∧ (f.ftype = "application/vnd.openxmlformats-officedocument.spreadsheetml.sheet" →
      ∀ rendered, f.payload = .ok (.xlsx rendered) →
        (preprocess_document s f).2 = (rendered, false))
    ∧ (f.ftype ≠ "application/pdf" →
      f.ftype ≠ "application/vnd.openxmlformats-officedocument.wordprocessingml.document" →
      f.ftype ≠ "application/vnd.openxmlformats-officedocument.spreadsheetml.sheet" →
        (preprocess_document s f).2 = ("", true))
    ∧ (∀ e, f.payload = .error e → (preprocess_document s f).2 = ("", true)) := by
  refine ⟨?_, ?_, ?_, ?_, ?_⟩
  · intro ht pages hp
    unfold preprocess_document
    rw [if_pos ht, hp]
  · intro ht paras hp
    unfold preprocess_document
    rw [if_neg (ht ▸ (by decide : ("application/vnd.openxmlformats-officedocument.wordprocessingml.document" : String) ≠ "application/pdf")),
      if_pos ht, hp]
  · intro ht rendered hp
    unfold preprocess_document
    rw [if_neg (ht ▸ (by decide : ("application/vnd.openxmlformats-officedocument.spreadsheetml.sheet" : String) ≠ "application/pdf")),
      if_neg (ht ▸ (by decide : ("application/vnd.openxmlformats-officedocument.spreadsheetml.sheet" : String) ≠ "application/vnd.openxmlformats-officedocument.wordprocessingml.document")),
      if_pos ht, hp]
  · intro h1 h2 h3
    unfold preprocess_document
    rw [if_neg h1, if_neg h2, if_neg h3]
  · intro e he
    unfold preprocess_document
    rw [he]
    repeat' split
    all_goals (try rfl)
    all_goals simp_all

/-- C7 witness: a PDF whose second page has no extractable text yields the
concatenation with the missing page as the empty string. -/
theorem preprocess_document_cases_witness :
    (preprocess_document initState
        ⟨"application/pdf", .ok (.pdf [some "a", none, some "b"])⟩).2
      = ("ab", false) := by
  have h := (preprocess_document_cases initState
      ⟨"application/pdf", .ok (.pdf [some "a", none, some "b"])⟩).1
    rfl [some "a", none, some "b"] rfl
  rw [h]
  decide

/-! ### C8 -/

/-- C8 counterexample: a successful remote call whose response has a present
but empty `choices` list makes `query_llm` return `""` with an error message
(the `[0]` raises IndexError, caught by the same handler), not the
`'No response text available.'` that the claim's reading predicts. -/
theorem query_llm_cases_cex :
    (query_llm (fun _ => .ok { choices := some [] }) initState "q" "c").2
        = ("", true)
    ∧ query_llm_claimed (fun _ => .ok { choices := some [] }) "q" "c"
        = ("No response text available.", false)
    ∧ (query_llm (fun _ => .ok { choices := some [] }) initState "q" "c").2
        ≠ query_llm_claimed (fun _ => .ok { choices := some [] }) "q" "c" := by
  refine ⟨rfl, rfl, ?_⟩
  decide

/-- C8 (amended): `query_llm` sends the remote model the fixed template with
the context then the query verbatim, and returns the first choice's text
field, `'No response text available.'` when the text field is absent (also
when the `choices` key is missing), and `""` with an error message when the
remote call raises an exception or when the `choices` list is present but
empty (the first-choice access raises IndexError inside the same handler). -/
theorem query_llm_cases_amended (predict : String → Except String LLMResponse)
    (s : RAGState) (q c : String) :
    mkPrompt q c
        = "You are an expert. Answer the question using the provided context:\n\nContext: "
          ++ c ++ "\n\nQuestion: " ++ q ++ "\n\nAnswer:"
    ∧ (∀ e, predict (mkPrompt q c) = .error e →
        (query_llm predict s q c).2 = ("", true))
    ∧ (∀ r, predict (mkPrompt q c) = .ok r → r.choices = none →
        (query_llm predict s q c).2 = ("No response text available.", false))
    ∧ (∀ r, predict (mkPrompt q c) = .ok r → r.choices = some [] →
        (query_llm predict s q c).2 = ("", true))
    ∧ (∀ r ch rest, predict (mkPrompt q c) = .ok r → r.choices = some (ch :: rest) →
        (query_llm predict s q c).2
          = (ch.text.getD "No response text available.", false)) := by
  refine ⟨?_, ?_, ?_, ?_, ?_⟩
  · simp [mkPrompt, String.append_assoc]
  · intro e he
    unfold query_llm
    rw [he]
  · intro r he hc
    simp [query_llm, he, hc]
  · intro r he hc
    simp [query_llm, he, hc]
  · intro r ch rest he hc
    simp [query_llm, he, hc]

/-- C8 witness: a successful call with one choice carrying text returns that
text. -/
theorem query_llm_cases_amended_witness :
    (query_llm (fun _ => .ok { choices := some [{ text := some "hi" }] })
        initState "q" "c").2 = ("hi", false) := by
  have h := (query_llm_cases_amended
      (fun _ => .ok { choices := some [{ text := some "hi" }] })
      initState "q" "c").2.2.2.2
    { choices := some [{ text := some "hi" }] } { text := some "hi" } [] rfl rfl
  rw [h]
  rfl

/-! ### Retrieval: crash-freedom helper -/

theorem retrieve_no_crash (encode : String → Vec) {s : RAGState} {q : String}
    (hne : s.chunks ≠ []) :
    ∃ v, seqOptions ((faissSearch (s.chunks.map encode) (encode q) 5).map (pyGet s.chunks))
        = some v ∧ v.length = 5 := by
  have hall : ∀ o ∈ (faissSearch (s.chunks.map encode) (encode q) 5).map (pyGet s.chunks),
      o ≠ none := by
    intro o ho
    rcases List.mem_map.mp ho with ⟨i, hi, rfl⟩
    rcases faissSearch_mem hi with ⟨h0, hlt⟩ | rfl
    · rw [List.length_map] at hlt
      exact pyGet_nonneg_ne h0 hlt
    · rcases pyGet_neg_one hne with ⟨v, hv⟩
      rw [hv]
      simp
  rcases seqOptions_some_of_all _ hall with ⟨v, hv, hlen⟩
  refine ⟨v, hv, ?_⟩
  rw [hlen, List.length_map, faissSearch_length]

/-! ### C6 -/

/-- C6: in every reachable state, `retrieve_context` displays an error and
returns the empty string exactly when no document is indexed (the index is
`None` or the chunk list is empty); otherwise it succeeds with a non-empty
context. -/
theorem retrieve_error_iff_unindexed (encode : String → Vec) (s : RAGState)
    (q : String) (h : Reachable encode s) :
    ((retrieve_context encode s q).2 = some ("", true)
      ↔ (s.faiss_index = none ∨ s.chunks = []))
    ∧ (¬(s.faiss_index = none ∨ s.chunks = []) →
        ∃ out, (retrieve_context encode s q).2 = some (out, false) ∧ out ≠ "") := by
  by_cases hcond : s.faiss_index = none ∨ s.chunks = []
  · rw [retrieve_context_unindexed encode s q hcond]
    exact ⟨⟨fun _ => hcond, fun _ => rfl⟩, fun hc => absurd hcond hc⟩
  · push_neg at hcond
    obtain ⟨hfi, hch⟩ := hcond
    have hidx : s.faiss_index = some (s.chunks.map encode) := by
      rcases (reachable_inv h).1 with h1 | h1
      · exact absurd h1 hch
      · exact h1
    rcases retrieve_no_crash encode (q := q) hch with ⟨v, hv, hvlen⟩
    have hout : (retrieve_context encode s q).2
        = some (String.intercalate " " v, false) := by
      rw [retrieve_context_indexed encode s q hidx hch]
      simp only [hv]
    have hvne : String.intercalate " " v ≠ "" := by
      cases v with
      | nil => simp at hvlen
      | cons a t =>
        cases t with
        | nil => simp at hvlen
        | cons b rest => exact intercalate_two_ne a b rest
    constructor
    · rw [hout]
      constructor
      · intro heq
        simp at heq
      · intro hc
        rcases hc with hc | hc
        · exact absurd hc hfi
        · exact absurd hc hch
    · intro _
      exact ⟨String.intercalate " " v, hout, hvne⟩

/-- C6 witness: after indexing `"hello"` from the initial state, retrieval
succeeds with a non-empty context. -/
theorem retrieve_error_iff_unindexed_witness :
    ∃ out, (retrieve_context encodeLen
        (store_embeddings encodeLen 32 initState "hello").1 "x").2
        = some (out, false) ∧ out ≠ "" :=
  (retrieve_error_iff_unindexed encodeLen _ "x"
      (Reachable.store initState "hello" Reachable.init)).2 (by decide)

/-! ### C9 -/

/-- C9 counterexample: a document with a single stored chunk is legitimately
indexed, yet the k=5 search returns the label `-1`, which is not a valid
non-negative position into `self.chunks`. -/
theorem retrieve_search_indices_cex :
    (store_embeddings encodeLen 32 initState "a").1.chunks = ["a"]
    ∧ (-1 : Int) ∈ faissSearch
        ((store_embeddings encodeLen 32 initState "a").1.faiss_index.getD [])
        (encodeLen "query") 5
    ∧ ¬(0 ≤ (-1 : Int)) := by
  decide

/-- C9 (amended): every label returned by the k=5 search is either a valid
non-negative position into `self.chunks` or the padding label `-1`; when at
least 5 chunks are stored every label is a valid non-negative position; and
the chunk lookup never raises (Python resolves `-1` to the last chunk), so
retrieval completes without error. -/
theorem retrieve_search_indices_amended (encode : String → Vec) (s : RAGState)
    (q : String) (hidx : s.faiss_index = some (s.chunks.map encode))
    (hne : s.chunks ≠ []) :
    (∀ i ∈ faissSearch (s.chunks.map encode) (encode q) 5,
        (0 ≤ i ∧ i.toNat < s.chunks.length) ∨ i = -1)
    ∧ (5 ≤ s.chunks.length →
        ∀ i ∈ faissSearch (s.chunks.map encode) (encode q) 5,
          0 ≤ i ∧ i.toNat < s.chunks.length)
    ∧ (∃ out, (retrieve_context encode s q).2 = some (out, false)) := by
  refine ⟨?_, ?_, ?_⟩
  · intro i hi
    rcases faissSearch_mem hi with ⟨h0, hlt⟩ | hpad
    · rw [List.length_map] at hlt
      exact Or.inl ⟨h0, hlt⟩
    · exact Or.inr hpad
  · intro h5 i hi
    have h5' : 5 ≤ (s.chunks.map encode).length := by
      rw [List.length_map]; exact h5
    rw [faissSearch_of_le h5'] at hi
    rcases List.mem_map.mp hi with ⟨j, hj, rfl⟩
    refine ⟨Int.ofNat_nonneg j, ?_⟩
    rw [Int.toNat_ofNat]
    have hj' := topK_mem hj
    rwa [List.length_map] at hj'
  · rcases retrieve_no_crash encode (q := q) hne with ⟨v, hv, _⟩
    refine ⟨String.intercalate " " v, ?_⟩
    rw [retrieve_context_indexed encode s q hidx hne]
    simp only [hv]

/-- C9 witness: with one stored chunk the lookup still completes without
error. -/
theorem retrieve_search_indices_amended_witness :
    ∃ out, (retrieve_context encodeLen
        ⟨["a"], none, some (["a"].map encodeLen), none⟩ "x").2
        = some (out, false) :=
  (retrieve_search_indices_amended encodeLen
      ⟨["a"], none, some (["a"].map encodeLen), none⟩ "x" rfl (by decide)).2.2

/-! ### C1 -/

/-- C1: for every indexed document with at least 5 stored chunks, retrieval
returns the space-joined concatenation of the 5 stored chunks whose
embeddings are nearest (by squared L2 distance) to the query embedding,
ordered by non-decreasing distance: the returned positions are 5 distinct
valid positions, listed in order of non-decreasing distance, and every
omitted position is at least as far from the query as every returned one. -/
theorem retrieve_context_top5 (encode : String → Vec) (s : RAGState)
    (q : String) (hidx : s.faiss_index = some (s.chunks.map encode))
    (h5 : 5 ≤ s.chunks.length) :
    ∃ idxs : List Nat,
      (retrieve_context encode s q).2
          = some (String.intercalate " "
              (idxs.map (fun i => s.chunks.getD i "")), false)
      ∧ idxs.length = 5
      ∧ idxs.Nodup
      ∧ (∀ i ∈ idxs, i < s.chunks.length)
      ∧ idxs.Pairwise (fun i j =>
          d2 (encode q) (encode (s.chunks.getD i ""))
            ≤ d2 (encode q) (encode (s.chunks.getD j "")))
      ∧ (∀ i ∈ idxs, ∀ j, j < s.chunks.length → j ∉ idxs →
          d2 (encode q) (encode (s.chunks.getD i ""))
            ≤ d2 (encode q) (encode (s.chunks.getD j ""))) := by
  have hne : s.chunks ≠ [] := by
    intro hc
    rw [hc] at h5
    simp at h5
  have h5' : 5 ≤ (s.chunks.map encode).length := by
    rw [List.length_map]; exact h5
  have hkeyeq : ∀ i, i < s.chunks.length →
      d2 (encode q) ((s.chunks.map encode).getD i [])
        = d2 (encode q) (encode (s.chunks.getD i "")) := by
    intro i hi
    rw [getD_map_of_lt hi "" ([] : Vec)]
  have hmemlt : ∀ i ∈ topK (fun i => d2 (encode q) ((s.chunks.map encode).getD i []))
      (s.chunks.map encode).length 5, i < s.chunks.length := by
    intro i hi
    have h := topK_mem hi
    rwa [List.length_map] at h
  have hseq : seqOptions ((faissSearch (s.chunks.map encode) (encode q) 5).map
        (pyGet s.chunks))
      = some ((topK (fun i => d2 (encode q) ((s.chunks.map encode).getD i []))
          (s.chunks.map encode).length 5).map (fun i => s.chunks.getD i "")) := by
    rw [faissSearch_of_le h5', List.map_map]
    refine seqOptions_map_some _ (fun x hx => ?_)
    simp only [Function.comp_apply]
    exact pyGet_coe (hmemlt x hx) ""
  refine ⟨topK (fun i => d2 (encode q) ((s.chunks.map encode).getD i []))
      (s.chunks.map encode).length 5, ?_, ?_, ?_, hmemlt, ?_, ?_⟩
  · rw [retrieve_context_indexed encode s q hidx hne]
    simp only [hseq]
  · rw [topK_length]
    exact min_eq_left h5'
  · exact topK_nodup _ _ _
  · have hp := topK_sorted (fun i => d2 (encode q) ((s.chunks.map encode).getD i []))
      (s.chunks.map encode).length 5
    refine hp.imp_of_mem ?_
    intro a b ha hb hr
    rw [← hkeyeq a (hmemlt a ha), ← hkeyeq b (hmemlt b hb)]
    exact hr
  · intro i hi j hj hnj
    have hj' : j < (s.chunks.map encode).length := by
      rw [List.length_map]; exact hj
    have h := topK_min hi hj' hnj
    rw [← hkeyeq i (hmemlt i hi), ← hkeyeq j hj]
    exact h

/-- C1 witness: a concrete indexed state with exactly 5 chunks. -/
theorem retrieve_context_top5_witness :
    ∃ idxs : List Nat,
      (retrieve_context encodeLen
          ⟨["a", "bb", "ccc", "dddd", "eeeee"], none,
            some (["a", "bb", "ccc", "dddd", "eeeee"].map encodeLen), none⟩ "qq").2
          = some (String.intercalate " "
              (idxs.map (fun i =>
                (["a", "bb", "ccc", "dddd", "eeeee"] : List String).getD i "")), false)
      ∧ idxs.length = 5
      ∧ idxs.Nodup
      ∧ (∀ i ∈ idxs, i < (["a", "bb", "ccc", "dddd", "eeeee"] : List String).length)
      ∧ idxs.Pairwise (fun i j =>
          d2 (encodeLen "qq") (encodeLen
              ((["a", "bb", "ccc", "dddd", "eeeee"] : List String).getD i ""))
            ≤ d2 (encodeLen "qq") (encodeLen
              ((["a", "bb", "ccc", "dddd", "eeeee"] : List String).getD j "")))
      ∧ (∀ i ∈ idxs, ∀ j,
          j < (["a", "bb", "ccc", "dddd", "eeeee"] : List String).length → j ∉ idxs →
          d2 (encodeLen "qq") (encodeLen
              ((["a", "bb", "ccc", "dddd", "eeeee"] : List String).getD i ""))
            ≤ d2 (encodeLen "qq") (encodeLen
              ((["a", "bb", "ccc", "dddd", "eeeee"] : List String).getD j ""))) :=
  retrieve_context_top5 encodeLen
    ⟨["a", "bb", "ccc", "dddd", "eeeee"], none,
      some (["a", "bb", "ccc", "dddd", "eeeee"].map encodeLen), none⟩ "qq"
    rfl (by decide)
